import Mathlib

/-!
Verification of the city-growth simulation core (`src/city_grow.rs`).

The Rust code is shallowly embedded: machine `usize` casts and wrapping
subtraction are modelled explicitly modulo `2 ^ 64`, `i32` positions are
modelled as `Int` (theorems carry the hypothesis that the grid is small
enough that no `i32` overflow can occur), `f32` quantities are modelled as
`ℚ` (every float expression in the claims is used only structurally, never
through rounding), and every random draw is threaded in as an explicit
parameter.  Fallible operations return `Option`.
-/

attribute [local semireducible] Rat.mul Rat.inv Rat.add Rat.sub
  Rat.ofScientific

namespace CityGrow

/-- `2 ^ 64`, the modulus of Rust's 64-bit `usize` arithmetic. -/
def usizeSize : Nat := 2 ^ 64

/-- Model of the Rust cast `v as usize` applied to a (possibly negative)
signed value: reduce modulo `2 ^ 64` (two's complement reinterpretation). -/
def usizeOf (v : Int) : Nat := (v % (usizeSize : Int)).toNat

/-- Model of `usize::wrapping_sub` for operands below `2 ^ 64`. -/
def wrapSub (a b : Nat) : Nat := (a + usizeSize - b) % usizeSize

/-- `Pos` from `city_grow.rs`: a grid position with `i32` coordinates. -/
structure Pos where
  x : Int
  y : Int
deriving DecidableEq, Repr

/-- `Pos::to_idx` before the `as usize` cast: `self.y * cell_count_x + self.x`. -/
def Pos.toIdx (p : Pos) (cellCountX : Int) : Int := p.y * cellCountX + p.x

/-- `Pos::to_idx`: `(self.y * cell_count_x + self.x) as usize`. -/
def Pos.toIdxU (p : Pos) (cellCountX : Int) : Nat := usizeOf (p.toIdx cellCountX)

/-- `Pos::from_idx`: `y = idx / cell_count_x; x = idx - y * cell_count_x`
(`i32` division truncates; both operands are nonnegative at every use). -/
def Pos.fromIdx (idx : Nat) (cellCountX : Int) : Pos :=
  let idxI : Int := (idx : Int)
  let y := idxI / cellCountX
  Pos.mk (idxI - y * cellCountX) y

/-- The position lies inside the `cell_count_x × cell_count_y` grid. -/
def inBounds (p : Pos) (cellCountX cellCountY : Int) : Prop :=
  0 ≤ p.x ∧ p.x < cellCountX ∧ 0 ≤ p.y ∧ p.y < cellCountY

instance (p : Pos) (cx cy : Int) : Decidable (inBounds p cx cy) := by
  unfold inBounds; infer_instance

/-- `DrawAction` from `city_grow.rs` (`f32` fields modelled as `ℚ`). -/
inductive DrawAction where
  | line (fromX fromY toX toY : ℚ)
  | rect (x y width height : ℚ)
deriving DecidableEq, Repr

/-- `BranchState` from `city_grow.rs`. -/
inductive BranchState where
  | Running
  | Stopped
deriving DecidableEq, Repr

/-- `BranchMode` from `city_grow.rs`. -/
inductive BranchMode where
  | City
  | Land
deriving DecidableEq, Repr

/-- `Branch` from `city_grow.rs` (rendering caches — `rendered_count`,
`pending_erasures`, cached colors, command-list chunks — are omitted;
no claim touches them). -/
structure Branch where
  pos : Pos
  state : BranchState
  mode : BranchMode
  expandDirection : Pos
  ownFields : List Pos
  age : Nat
  lifeTime : Nat
  hue : ℚ
  saturation : ℚ
  lightness : ℚ
  history : List DrawAction
deriving DecidableEq, Repr

/-- `Branch::new` (the randomly drawn hue is passed in explicitly). -/
def Branch.new (pos : Pos) (lifeTime : Nat) (lightness : ℚ) (hue : ℚ) : Branch :=
  { pos := pos
    state := BranchState.Running
    mode := BranchMode.City
    expandDirection := Pos.mk 0 0
    ownFields := [pos]
    age := 0
    lifeTime := lifeTime
    hue := hue
    saturation := 100
    lightness := lightness
    history := [] }

/-- The guarded cell read `check_idx < cells.len() && cells[check_idx] == 0`
from `Branch::get_free_fields`; the indexing is dominated by the length
check, so it is modelled with a default that can never satisfy `= 0`. -/
def cellCheck (cells : List Nat) (i : Nat) : Prop :=
  i < cells.length ∧ cells.getD i 1 = 0

instance (cells : List Nat) (i : Nat) : Decidable (cellCheck cells i) := by
  unfold cellCheck; infer_instance

/-- `Branch::get_free_fields`: enumerate the free 4-neighbors of `pos` in the
fixed order East, West, South, North.  Each direction mirrors the source:
an outer bounds test on the coordinate, then the guarded read of the
neighbouring index (East/South use `usize` addition, West/North use
`usize::wrapping_sub`). -/
def getFreeFields (pos : Pos) (cells : List Nat) (cellCountX cellCountY : Int) :
    List Pos :=
  let idx := pos.toIdxU cellCountX
  let eastList : List Pos :=
    if pos.x + 1 < cellCountX ∧ cellCheck cells (idx + 1) then
      [Pos.mk (pos.x + 1) pos.y] else []
  let westList : List Pos :=
    if 0 < pos.x ∧ cellCheck cells (wrapSub idx 1) then
      [Pos.mk (pos.x - 1) pos.y] else []
  let southList : List Pos :=
    if pos.y + 1 < cellCountY ∧ cellCheck cells (idx + usizeOf cellCountX) then
      [Pos.mk pos.x (pos.y + 1)] else []
  let northList : List Pos :=
    if 0 < pos.y ∧ cellCheck cells (wrapSub idx (usizeOf cellCountX)) then
      [Pos.mk pos.x (pos.y - 1)] else []
  eastList ++ westList ++ southList ++ northList

/-- `p` is one of the four axis-aligned neighbours of `pos`. -/
def isStepNeighbor (p pos : Pos) : Prop :=
  p = Pos.mk (pos.x + 1) pos.y ∨ p = Pos.mk (pos.x - 1) pos.y ∨
  p = Pos.mk pos.x (pos.y + 1) ∨ p = Pos.mk pos.x (pos.y - 1)

instance (p pos : Pos) : Decidable (isStepNeighbor p pos) := by
  unfold isStepNeighbor; infer_instance

/-- `Branch::move_to_new_pos`: walk backward through `own_fields`, starting
at the most recent entry and stopping after at most `max_steps_back`
entries, and return the first visited position that still has a free
neighbour (the Rust method assigns it to `self.pos` and returns `true`). -/
def moveToNewPos (b : Branch) (cells : List Nat) (cellCountX cellCountY : Int)
    (maxStepsBack : Nat) : Option Pos :=
  let start := b.ownFields.length - maxStepsBack
  ((b.ownFields.drop start).reverse).find?
    (fun p => !(getFreeFields p cells cellCountX cellCountY).isEmpty)

/-- `Branch::find_next_move`, fuelled.  The Rust method recurses after a
successful backtrack; since `move_to_new_pos` only succeeds on a position
that has a free neighbour (with the same unchanged `cells`), the recursion
always terminates after one backtrack, so fuel 2 is exact.  `ageReroll` is
the draw of `rng.random_range(0..=self.age)` and `pick` feeds the final
uniform index draw (taken modulo the candidate count, which is exactly the
range the Rust `random_range(0..len)` draws from). -/
def findNextMoveGo (fuel : Nat) (b : Branch) (cells : List Nat)
    (cellCountX cellCountY : Int) (lifeTimeBranch maxStepsBack : Nat)
    (ageReroll pick : Nat) : Branch × Option Pos :=
  match fuel with
  | 0 => (b, none)
  | fuel + 1 =>
    if b.state ≠ BranchState.Running then (b, none)
    else
      let ff := getFreeFields b.pos cells cellCountX cellCountY
      if ff.isEmpty then
        match moveToNewPos b cells cellCountX cellCountY maxStepsBack with
        | some p =>
            findNextMoveGo fuel { b with pos := p } cells cellCountX cellCountY
              lifeTimeBranch maxStepsBack ageReroll pick
        | none => ({ b with state := BranchState.Stopped }, none)
      else
        let step :=
          if b.lifeTime - b.age < lifeTimeBranch then
            ({ b with mode := BranchMode.City }, ff)
          else if b.mode = BranchMode.Land then
            let expandField :=
              Pos.mk (b.pos.x + b.expandDirection.x) (b.pos.y + b.expandDirection.y)
            if ff.any (fun f => f.x == expandField.x && f.y == expandField.y) then
              (b, ff ++ List.replicate 10 expandField)
            else
              ({ b with mode := BranchMode.City, age := ageReroll }, ff)
          else (b, ff)
        (step.1, some (step.2.getD (pick % step.2.length) b.pos))

/-- `Branch::find_next_move` (see `findNextMoveGo` for the fuel). -/
def findNextMove (b : Branch) (cells : List Nat) (cellCountX cellCountY : Int)
    (lifeTimeBranch maxStepsBack : Nat) (ageReroll pick : Nat) :
    Branch × Option Pos :=
  findNextMoveGo 2 b cells cellCountX cellCountY lifeTimeBranch maxStepsBack
    ageReroll pick

/-- `Branch::create_line`: build the draw actions for a move to `toPos`
(two fill rectangles in City mode with `fill_city` set, then the line),
set `pos` to the destination and append it to `own_fields`.  The source's
`line_width` is `2.0` in both modes; `offset = margin = 1`. -/
def createLine (b : Branch) (toPos : Pos) (fromPosOpt : Option Pos) (size : ℚ)
    (fillCity : Bool) : Branch × List DrawAction :=
  let fromPos := fromPosOpt.getD b.pos
  let lineWidth : ℚ := if b.mode = BranchMode.Land then 2 else 2
  let offset := lineWidth / 2
  let margin := lineWidth / 2
  let scale := 2 * size
  let marginOffset := margin + offset
  let rectSize := scale - 2 * margin
  let rects : List DrawAction :=
    if fillCity = true ∧ b.mode = BranchMode.City ∧ b.ownFields ≠ [] then
      let lastPosition := b.ownFields.getD (b.ownFields.length - 1) b.pos
      let perpX := toPos.y - lastPosition.y
      let perpY := toPos.x - lastPosition.x
      let imaginary1 := Pos.mk (lastPosition.x + perpX) (lastPosition.y + perpY)
      let leftTop1 := Pos.mk (min toPos.x imaginary1.x) (min toPos.y imaginary1.y)
      let imaginary2 := Pos.mk (lastPosition.x - perpX) (lastPosition.y - perpY)
      let leftTop2 := Pos.mk (min toPos.x imaginary2.x) (min toPos.y imaginary2.y)
      [DrawAction.rect (scale * (leftTop1.x : ℚ) + marginOffset)
          (scale * (leftTop1.y : ℚ) + marginOffset) rectSize rectSize,
        DrawAction.rect (scale * (leftTop2.x : ℚ) + marginOffset)
          (scale * (leftTop2.y : ℚ) + marginOffset) rectSize rectSize]
    else []
  let lineAction := DrawAction.line (scale * (fromPos.x : ℚ) + offset)
    (scale * (fromPos.y : ℚ) + offset) (scale * (toPos.x : ℚ) + offset)
    (scale * (toPos.y : ℚ) + offset)
  ({ b with pos := toPos, ownFields := b.ownFields ++ [toPos] },
    rects ++ [lineAction])

/-- `Branch::set_expand_direction`: sample a free neighbour of the current
position (`dirPick` feeds the uniform draw) and store the offset to it;
no-op when no neighbour is free. -/
def setExpandDirection (b : Branch) (cells : List Nat)
    (cellCountX cellCountY : Int) (dirPick : Nat) : Branch :=
  let ff := getFreeFields b.pos cells cellCountX cellCountY
  if ff.isEmpty then b
  else
    let target := ff.getD (dirPick % ff.length) b.pos
    { b with expandDirection :=
        Pos.mk (target.x - b.pos.x) (target.y - b.pos.y) }

/-- Rust `f32` `%` on the nonnegative operands used by `set_main`
(truncated remainder, equal to the floor remainder there). -/
def ratFmod (a b : ℚ) : ℚ := a - b * ((⌊a / b⌋ : Int) : ℚ)

/-- `Branch::set_main`: promote a branch to a main branch. -/
def setMain (b : Branch) (changeHue : ℚ) (lifeTime : Nat) (lightness : ℚ) :
    Branch :=
  { b with
    saturation := 100
    lightness := lightness
    hue := ratFmod (b.hue + changeHue) 360
    lifeTime := lifeTime }

/-- Result of `Branch::branch_off`.  The Rust method borrows the cell array
immutably (`cells: &[u8]`); `cellsAfter` is the state-passing image of that
borrow, so it is the unchanged input by construction. -/
structure BranchOffResult where
  parent : Branch
  child : Option Branch
  cellsAfter : List Nat
deriving DecidableEq, Repr

/-- `Branch::branch_off`: spawn a child from the historical tip
(`own_fields.last`).  Fails (`child = none`) if the branch has not moved
(`own_fields.len() <= 1`) or the tip has no free neighbour; on success the
parent is moved to the chosen neighbour by `create_line`, the actions are
appended to the parent's history, and the child is a fresh City-mode branch
at the parent's new position carrying the parent's hue. -/
def branchOff (b : Branch) (cells : List Nat) (cellCountX cellCountY : Int)
    (size : ℚ) (lifeTimeBranch : Nat) (fillCity : Bool) (lightnessBranch : ℚ)
    (pick : Nat) (childHue : ℚ) : BranchOffResult :=
  if b.ownFields.length ≤ 1 then ⟨b, none, cells⟩
  else
    let searchPos := b.ownFields.getD (b.ownFields.length - 1) b.pos
    let ff := getFreeFields searchPos cells cellCountX cellCountY
    if ff.isEmpty then ⟨b, none, cells⟩
    else
      let newPos := ff.getD (pick % ff.length) searchPos
      let step := createLine b newPos (some searchPos) size fillCity
      let parent := { step.1 with history := step.1.history ++ step.2 }
      let child :=
        { Branch.new parent.pos lifeTimeBranch lightnessBranch childHue with
            hue := parent.hue, lifeTime := lifeTimeBranch }
      ⟨parent, some child, cells⟩

/-- The tunables of `CityGrowConfig` that the simulation core reads
(`f32` fields as `ℚ`, `u16`/`u8` fields as `Nat`). -/
structure Config where
  lifeTime : Nat
  lifeTimeBranch : Nat
  propCityToLand : ℚ
  propLandToCity : ℚ
  propBranchOff : ℚ
  propBranchOffLand : ℚ
  propBranchOffToMain : ℚ
  branchFallOff : ℚ
  changeHueNewMain : ℚ
  startBranches : Nat
  fillCity : Bool
  maxStepsBack : Nat
  lightnessDefault : ℚ
  lightnessBranch : ℚ
deriving Repr

/-- The random draws consumed for one branch in the stepping pass of
`CityGrowScene::update`: the mode-transition roll, the direction pick of
`set_expand_direction`, the Land→City age reroll of the transition, and the
two draws inside `find_next_move`. -/
structure TickRand where
  roll : ℚ
  dirPick : Nat
  ageReroll2 : Nat
  ageReroll : Nat
  movePick : Nat
deriving Repr

instance : Inhabited TickRand := ⟨⟨0, 0, 0, 0, 0⟩⟩

/-- The random draws consumed for one branch in the branching pass of
`CityGrowScene::update`: the branch-off roll, the spawn-point pick and
child hue inside `branch_off`, and the promotion roll. -/
structure BranchRand where
  roll : ℚ
  pick : Nat
  childHue : ℚ
  mainRoll : ℚ
deriving Repr

instance : Inhabited BranchRand := ⟨⟨0, 0, 0, 0⟩⟩

/-- The mode-transition block of `CityGrowScene::update` (the two `&&`
conditions short-circuit, so at most one probability roll is consumed;
it is passed in as `roll`). -/
def modeTransition (b : Branch) (cells : List Nat) (cellCountX cellCountY : Int)
    (propCityToLand propLandToCity : ℚ) (roll : ℚ) (dirPick ageReroll2 : Nat) :
    Branch :=
  if b.mode = BranchMode.City ∧ roll ≤ propCityToLand / 100 then
    setExpandDirection { b with mode := BranchMode.Land } cells cellCountX
      cellCountY dirPick
  else if b.mode = BranchMode.Land ∧ roll ≤ propLandToCity then
    { b with mode := BranchMode.City, age := ageReroll2 }
  else b

/-- One branch of the stepping loop of `CityGrowScene::update`: death check,
mode transition, `find_next_move`, and on a move the `create_line` commit —
history extension, age increment, and marking the destination cell occupied
(`self.cells[new_pos.to_idx(..)] = 1`).  Returns the updated branch, the
updated cells, and the committed destination (if any). -/
def tickBranch (cfg : Config) (size : ℚ) (b : Branch) (cells : List Nat)
    (cellCountX cellCountY : Int) (r : TickRand) :
    Branch × List Nat × Option Pos :=
  if b.lifeTime ≤ b.age then ({ b with state := BranchState.Stopped }, cells, none)
  else
    let b1 := modeTransition b cells cellCountX cellCountY cfg.propCityToLand
      cfg.propLandToCity r.roll r.dirPick r.ageReroll2
    let step := findNextMove b1 cells cellCountX cellCountY cfg.lifeTimeBranch
      cfg.maxStepsBack r.ageReroll r.movePick
    match step with
    | (b2, none) => (b2, cells, none)
    | (b2, some newPos) =>
      let commit := createLine b2 newPos none size cfg.fillCity
      let b3 := { commit.1 with
        history := commit.1.history ++ commit.2
        age := commit.1.age + 1 }
      (b3, cells.set (newPos.toIdxU cellCountX) 1, some newPos)

/-- The stepping pass of `CityGrowScene::update` over the whole branch list,
threading the cell array through the per-branch commits and consuming one
`TickRand` per branch. -/
def steppingPass (cfg : Config) (size : ℚ) (cellCountX cellCountY : Int) :
    List Nat → List Branch → List TickRand → List Nat × List Branch
  | cells, [], _ => (cells, [])
  | cells, b :: bs, rs =>
    let step := tickBranch cfg size b cells cellCountX cellCountY
      (rs.headD default)
    let rest := steppingPass cfg size cellCountX cellCountY step.2.1 bs rs.tail
    (rest.1, step.1 :: rest.2)

/-- `scaled_branch_off` from `CityGrowScene::update`:
`prop_branch_off * (1.0 + branch_fall_off) / (branch_fall_off + branch_count)`. -/
def scaledBranchOff (cfg : Config) (branchCount : ℚ) : ℚ :=
  cfg.propBranchOff * (1 + cfg.branchFallOff) / (cfg.branchFallOff + branchCount)

/-- `scaled_branch_off_land` from `CityGrowScene::update`. -/
def scaledBranchOffLand (cfg : Config) (branchCount : ℚ) : ℚ :=
  cfg.propBranchOffLand * (1 + cfg.branchFallOff) /
    (cfg.branchFallOff + branchCount)

/-- The per-branch branch-off chance the engine rolls against: the City
scaling for City-mode branches, the Land scaling otherwise (the comparison
in the source divides it by 100 at the roll). -/
def engineBranchChance (cfg : Config) (mode : BranchMode) (branchCount : ℚ) :
    ℚ :=
  if mode = BranchMode.City then scaledBranchOff cfg branchCount
  else scaledBranchOffLand cfg branchCount

/-- The branching pass of `CityGrowScene::update` over the branch list:
`branchCount` is `self.branch_list.len()` captured before the loop; each
branch rolls against its scaled chance, attempts `branch_off` on success,
and a spawned child is promoted via `set_main` with probability
`prop_branch_off_to_main / 100`.  Returns the updated originals and the
collected children (the source then appends the children to the list). -/
def branchingPass (cfg : Config) (size : ℚ) (cells : List Nat)
    (cellCountX cellCountY : Int) (branchCount : ℚ) :
    List Branch → List BranchRand → List Branch × List Branch
  | [], _ => ([], [])
  | b :: bs, rs =>
    let r := rs.headD default
    let attempt :=
      if r.roll ≤ engineBranchChance cfg b.mode branchCount / 100 then
        let res := branchOff b cells cellCountX cellCountY size
          cfg.lifeTimeBranch cfg.fillCity cfg.lightnessBranch r.pick r.childHue
        match res.child with
        | some child =>
          let child' :=
            if r.mainRoll ≤ cfg.propBranchOffToMain / 100 then
              setMain child cfg.changeHueNewMain cfg.lifeTime
                cfg.lightnessDefault
            else child
          (res.parent, [child'])
        | none => (res.parent, [])
      else (b, [])
    let rest := branchingPass cfg size cells cellCountX cellCountY branchCount
      bs rs.tail
    (attempt.1 :: rest.1, attempt.2 ++ rest.2)

/-- One full growth-phase `CityGrowScene::update`: branching pass (children
appended to the active list), then the stepping pass; finally stopped
branches are retained out of the active list (their histories persist in
`all_branches`, which no claim inspects further here). -/
def growthUpdate (cfg : Config) (size : ℚ) (cellCountX cellCountY : Int)
    (cells : List Nat) (bs : List Branch) (brs : List BranchRand)
    (trs : List TickRand) : List Nat × List Branch :=
  let branching := branchingPass cfg size cells cellCountX cellCountY
    ((bs.length : ℚ)) bs brs
  let stepped := steppingPass cfg size cellCountX cellCountY cells
    (branching.1 ++ branching.2) trs
  (stepped.1, stepped.2.filter (fun b => b.state = BranchState.Running))

/-- A growth phase: fold `growthUpdate` over a list of per-tick random
streams. -/
def growthRun (cfg : Config) (size : ℚ) (cellCountX cellCountY : Int) :
    List (List BranchRand × List TickRand) → List Nat × List Branch →
    List Nat × List Branch
  | [], st => st
  | t :: ts, st =>
    growthRun cfg size cellCountX cellCountY ts
      (growthUpdate cfg size cellCountX cellCountY st.1 st.2 t.1 t.2)

/-- The seeding loop of `CityGrowScene::initialize_with_clear`: for each
seed, a random index into the cell array (paired with the random hue of
`Branch::new`) is turned into a position, a fresh branch is pushed, and the
seed cell is marked occupied. -/
def seedLoop (cellCountX : Int) (lifeTime : Nat) (lightnessDefault : ℚ) :
    List (Nat × ℚ) → List Nat × List Branch → List Nat × List Branch
  | [], st => st
  | (idx, hue) :: seeds, (cells, bl) =>
    let pos := Pos.fromIdx idx cellCountX
    let branch := Branch.new pos lifeTime lightnessDefault hue
    seedLoop cellCountX lifeTime lightnessDefault seeds
      (cells.set (pos.toIdxU cellCountX) 1, bl ++ [branch])

/-- `CityGrowScene::initialize_with_clear` restricted to the simulation
state the claims mention: reset every cell to 0, clear the branch lists,
then run the seeding loop once per start branch (`seeds.length` plays
`start_branches`; each entry carries that branch's two random draws). -/
def initWithClear (cellCount : Nat) (cellCountX : Int) (lifeTime : Nat)
    (lightnessDefault : ℚ) (seeds : List (Nat × ℚ)) : List Nat × List Branch :=
  seedLoop cellCountX lifeTime lightnessDefault seeds
    (List.replicate cellCount 0, [])

/-- Number of occupied cells of the grid. -/
def occupiedCount (cells : List Nat) : Nat :=
  (cells.filter (fun c => c ≠ 0)).length

/-- Concatenation of a list of lists (used to state the erase round-trip). -/
def concatAll : List (List α) → List α
  | [] => []
  | xs :: L => xs ++ concatAll L

/-- The per-branch effect of one reverse step of `CityGrowScene::update`
(`reverse_running` arm): with `k` the `reverse_points_per_branch` of that
step, `to_remove = min(history.len(), k)`, and the engine drains the last
`to_remove` entries (`history.drain(new_len..)` yields them oldest-first)
into the pending erasures.  `reverseSteps ks h` is the list of drained
blocks for the per-step budgets `ks`, in step order. -/
def reverseSteps : List Nat → List α → List (List α)
  | [], _ => []
  | k :: ks, h =>
    let newLen := h.length - min h.length k
    h.drop newLen :: reverseSteps ks (h.take newLen)

/-- The history remaining after the reverse steps of `reverseSteps`. -/
def remainingAfter : List Nat → List α → List α
  | [], h => h
  | k :: ks, h => remainingAfter ks (h.take (h.length - min h.length k))

/-- Stated from the spec, for comparison (§8, population-scaled branching
bound): `base_chance * (1 + falloff) / (falloff + n)`. -/
def specBranchChance (baseChance falloff n : ℚ) : ℚ :=
  baseChance * (1 + falloff) / (falloff + n)

/-- Stated from the spec, for comparison: `base_chance(mode)` is
`prop_branch_off` in City mode and `prop_branch_off_land` in Land mode. -/
def specBaseChance (cfg : Config) : BranchMode → ℚ
  | BranchMode.City => cfg.propBranchOff
  | BranchMode.Land => cfg.propBranchOffLand

/-- Stated from the spec, for comparison (claim C5's reading of §4.2): on a
tick where the late-life override applies, force City **before** the mode
transition and skip the mode-transition step entirely; otherwise behave as
the engine does. -/
def tickBranchSpecC5 (cfg : Config) (size : ℚ) (b : Branch) (cells : List Nat)
    (cellCountX cellCountY : Int) (r : TickRand) :
    Branch × List Nat × Option Pos :=
  if b.lifeTime ≤ b.age then ({ b with state := BranchState.Stopped }, cells, none)
  else if b.lifeTime - b.age < cfg.lifeTimeBranch then
    let b1 := { b with mode := BranchMode.City }
    let step := findNextMove b1 cells cellCountX cellCountY cfg.lifeTimeBranch
      cfg.maxStepsBack r.ageReroll r.movePick
    match step with
    | (b2, none) => (b2, cells, none)
    | (b2, some newPos) =>
      let commit := createLine b2 newPos none size cfg.fillCity
      let b3 := { commit.1 with
        history := commit.1.history ++ commit.2
        age := commit.1.age + 1 }
      (b3, cells.set (newPos.toIdxU cellCountX) 1, some newPos)
  else
    tickBranch cfg size b cells cellCountX cellCountY r

/-! ### Sample concrete inputs (used by the `decide`-evaluated witnesses) -/

/-- A concrete configuration (the source defaults, with `life_time_branch`
15, all `f32` values exact). -/
def sampleConfig : Config :=
  ⟨8000, 15, 12, 3 / 1000, 15, 6, 1, 50, 9, 3, true, 300, 50, 20⟩

/-- A fresh branch seeded at the origin with a 10-tick lifetime. -/
def sampleBranch : Branch := Branch.new (Pos.mk 0 0) 10 50 0

/-- Random draws for one stepping-pass tick: the transition roll fails
(1 > 12/100), all index draws pick the first candidate. -/
def sampleRand : TickRand := ⟨1, 0, 0, 0, 0⟩

/-- A concrete four-entry draw history with pairwise distinct actions. -/
def sampleHistory : List DrawAction :=
  [DrawAction.line 0 0 0 0, DrawAction.line 1 0 0 0,
    DrawAction.line 2 0 0 0, DrawAction.line 3 0 0 0]

/-- A Land-mode branch near the end of its life (age 5 of 6), with a valid
expand direction, used for the late-life-override counterexample. -/
def sampleLandBranch : Branch :=
  { pos := Pos.mk 0 0
    state := BranchState.Running
    mode := BranchMode.Land
    expandDirection := Pos.mk 1 0
    ownFields := [Pos.mk 0 0]
    age := 5
    lifeTime := 6
    hue := 0
    saturation := 100
    lightness := 50
    history := [] }

/-- Random draws whose transition roll is 0, so the Land→City transition
(threshold `prop_land_to_city = 3/1000`) fires. -/
def sampleRollZero : TickRand := ⟨0, 0, 0, 0, 0⟩

/-- A long-lived Land-mode branch whose directional target
`pos + expand_direction = (5, 5)` is not a free neighbour. -/
def sampleBlockedBranch : Branch :=
  { pos := Pos.mk 0 0
    state := BranchState.Running
    mode := BranchMode.Land
    expandDirection := Pos.mk 5 5
    ownFields := [Pos.mk 0 0]
    age := 3
    lifeTime := 100
    hue := 0
    saturation := 100
    lightness := 50
    history := [] }

/-- The historical tip (`own_fields[own_fields.len() - 1]`) that
`branch_off` searches from. -/
def searchPosOf (b : Branch) : Pos :=
  b.ownFields.getD (b.ownFields.length - 1) b.pos

/-- The spawn cell a successful `branch_off` selects: the `pick`-th free
neighbour of the historical tip. -/
def spawnPosOf (b : Branch) (cells : List Nat) (cx cy : Int) (pick : Nat) :
    Pos :=
  (getFreeFields (searchPosOf b) cells cx cy).getD
    (pick % (getFreeFields (searchPosOf b) cells cx cy).length)
    (searchPosOf b)

/-- A branch that has moved once: `own_fields = [(0,0), (1,0)]`. -/
def sampleMovedBranch : Branch :=
  { sampleBranch with pos := Pos.mk 1 0, ownFields := [Pos.mk 0 0, Pos.mk 1 0] }

/-- Branching-pass random draws whose branch-off roll of 1 always fails
against the default scaled chances (0.15 and 0.06). -/
def sampleBranchRand : BranchRand := ⟨1, 0, 0, 0⟩

/-! ### Helper lemmas -/

theorem usizeSize_eq : usizeSize = 18446744073709551616 := by
  norm_num [usizeSize]

theorem usizeOf_eq_toNat {v : Int} (h0 : 0 ≤ v) (h1 : v < (usizeSize : Int)) :
    usizeOf v = v.toNat := by
  unfold usizeOf
  rw [Int.emod_eq_of_lt h0 h1]

theorem toIdx_bounds {p : Pos} {cx cy : Int} (hcx : 0 < cx)
    (hp : inBounds p cx cy) : 0 ≤ p.toIdx cx ∧ p.toIdx cx < cx * cy := by
  obtain ⟨hx0, hx1, hy0, hy1⟩ := hp
  have h1 : 0 ≤ p.y * cx := mul_nonneg hy0 hcx.le
  have h2 : (p.y + 1) * cx ≤ cy * cx :=
    mul_le_mul_of_nonneg_right (by omega) hcx.le
  unfold Pos.toIdx
  constructor
  · omega
  · nlinarith

theorem getD_mem {α : Type _} {l : List α} {k : Nat} (d : α)
    (h : k < l.length) : l.getD k d ∈ l := by
  induction l generalizing k with
  | nil => simp at h
  | cons a l ih =>
    cases k with
    | zero => simp [List.getD]
    | succ k =>
      simp only [List.getD_cons_succ]
      exact List.mem_cons_of_mem _ (ih (by simpa using h))

theorem getD_set_self {l : List Nat} {i : Nat} {v d : Nat}
    (h : i < l.length) : (l.set i v).getD i d = v := by
  induction l generalizing i with
  | nil => simp at h
  | cons a l ih =>
    cases i with
    | zero => simp [List.getD]
    | succ i => simpa [List.getD] using ih (by simpa using h)

theorem getD_set_ne {l : List Nat} {i j : Nat} {v d : Nat} (h : i ≠ j) :
    (l.set i v).getD j d = l.getD j d := by
  induction l generalizing i j with
  | nil => simp
  | cons a l ih =>
    cases i with
    | zero => cases j with
      | zero => omega
      | succ j => simp [List.getD]
    | succ i =>
      cases j with
      | zero => simp [List.getD]
      | succ j => simpa [List.getD] using ih (by omega)

theorem inBounds_mk {x y cx cy : Int} :
    inBounds (Pos.mk x y) cx cy ↔ 0 ≤ x ∧ x < cx ∧ 0 ≤ y ∧ y < cy :=
  Iff.rfl

theorem usizeOf_small {v : Int} (h0 : 0 ≤ v) (h1 : v < 2147483648) :
    usizeOf v = v.toNat := by
  refine usizeOf_eq_toNat h0 ?_
  have : (usizeSize : Int) = 18446744073709551616 := by
    rw [usizeSize_eq]; norm_num
  omega

theorem wrapSub_small {a b : Nat} (hb : b ≤ a) (ha : a < 2147483648) :
    wrapSub a b = a - b := by
  rw [wrapSub, usizeSize_eq]
  omega

theorem toIdx_east (pos : Pos) (cx : Int) :
    (Pos.mk (pos.x + 1) pos.y).toIdx cx = pos.toIdx cx + 1 := by
  simp only [Pos.toIdx]; ring

theorem toIdx_west (pos : Pos) (cx : Int) :
    (Pos.mk (pos.x - 1) pos.y).toIdx cx = pos.toIdx cx - 1 := by
  simp only [Pos.toIdx]; ring

theorem toIdx_south (pos : Pos) (cx : Int) :
    (Pos.mk pos.x (pos.y + 1)).toIdx cx = pos.toIdx cx + cx := by
  simp only [Pos.toIdx]; ring

theorem toIdx_north (pos : Pos) (cx : Int) :
    (Pos.mk pos.x (pos.y - 1)).toIdx cx = pos.toIdx cx - cx := by
  simp only [Pos.toIdx]; ring

theorem cellCheck_iff (cells : List Nat) (i : Nat) :
    cellCheck cells i ↔ i < cells.length ∧ cells.getD i 1 = 0 :=
  Iff.rfl

theorem mem_ite_singleton {α : Type _} (c : Prop) [Decidable c] (q x : α) :
    (q ∈ (if c then [x] else [])) ↔ c ∧ q = x := by
  split <;> simp_all

theorem eastCheck_iff {cx cy : Int} {cells : List Nat} {pos : Pos}
    (hcx : 0 < cx) (hcy : 0 < cy) (hsmall : cx * cy < 2147483648)
    (hlen : (cells.length : Int) = cx * cy) (hpos : inBounds pos cx cy) :
    (pos.x + 1 < cx ∧ cellCheck cells (pos.toIdxU cx + 1)) ↔
      (inBounds (Pos.mk (pos.x + 1) pos.y) cx cy ∧
        cells.getD ((Pos.mk (pos.x + 1) pos.y).toIdxU cx) 1 = 0) := by
  obtain ⟨hx0, hx1, hy0, hy1⟩ := hpos
  have hib := toIdx_bounds hcx ⟨hx0, hx1, hy0, hy1⟩
  have hiU : pos.toIdxU cx = (pos.toIdx cx).toNat :=
    usizeOf_small hib.1 (by omega)
  constructor
  · rintro ⟨hbd, hck⟩
    obtain ⟨hlt, hfree⟩ := (cellCheck_iff cells _).mp hck
    have hnb : inBounds (Pos.mk (pos.x + 1) pos.y) cx cy :=
      inBounds_mk.mpr ⟨by omega, hbd, hy0, hy1⟩
    have hnbB := toIdx_bounds hcx hnb
    rw [toIdx_east] at hnbB
    have hnU : (Pos.mk (pos.x + 1) pos.y).toIdxU cx = pos.toIdxU cx + 1 := by
      rw [Pos.toIdxU, toIdx_east, usizeOf_small hnbB.1 (by omega), hiU]; omega
    exact ⟨hnb, by rw [hnU]; exact hfree⟩
  · rintro ⟨hnb, hfree⟩
    obtain ⟨h1, h2, h3, h4⟩ := inBounds_mk.mp hnb
    have hnbB := toIdx_bounds hcx hnb
    rw [toIdx_east] at hnbB
    have hnU : (Pos.mk (pos.x + 1) pos.y).toIdxU cx = pos.toIdxU cx + 1 := by
      rw [Pos.toIdxU, toIdx_east, usizeOf_small hnbB.1 (by omega), hiU]; omega
    refine ⟨h2, (cellCheck_iff cells _).mpr ⟨?_, ?_⟩⟩
    · rw [hiU]; omega
    · rw [← hnU]; exact hfree

theorem westCheck_iff {cx cy : Int} {cells : List Nat} {pos : Pos}
    (hcx : 0 < cx) (hcy : 0 < cy) (hsmall : cx * cy < 2147483648)
    (hlen : (cells.length : Int) = cx * cy) (hpos : inBounds pos cx cy) :
    (0 < pos.x ∧ cellCheck cells (wrapSub (pos.toIdxU cx) 1)) ↔
      (inBounds (Pos.mk (pos.x - 1) pos.y) cx cy ∧
        cells.getD ((Pos.mk (pos.x - 1) pos.y).toIdxU cx) 1 = 0) := by
  obtain ⟨hx0, hx1, hy0, hy1⟩ := hpos
  have hib := toIdx_bounds hcx ⟨hx0, hx1, hy0, hy1⟩
  have hiU : pos.toIdxU cx = (pos.toIdx cx).toNat :=
    usizeOf_small hib.1 (by omega)
  have hkey : 0 < pos.x →
      ((Pos.mk (pos.x - 1) pos.y).toIdxU cx = wrapSub (pos.toIdxU cx) 1 ∧
        inBounds (Pos.mk (pos.x - 1) pos.y) cx cy) := by
    intro hbd
    have hge1 : 1 ≤ pos.toIdx cx := by unfold Pos.toIdx at *; nlinarith
    have hnb : inBounds (Pos.mk (pos.x - 1) pos.y) cx cy :=
      inBounds_mk.mpr ⟨by omega, by omega, hy0, hy1⟩
    have hw : wrapSub (pos.toIdxU cx) 1 = pos.toIdxU cx - 1 :=
      wrapSub_small (by omega) (by omega)
    refine ⟨?_, hnb⟩
    rw [Pos.toIdxU, toIdx_west, usizeOf_small (by omega) (by omega), hw, hiU]
    omega
  constructor
  · rintro ⟨hbd, hck⟩
    obtain ⟨hlt, hfree⟩ := (cellCheck_iff cells _).mp hck
    obtain ⟨hnU, hnb⟩ := hkey hbd
    exact ⟨hnb, by rw [hnU]; exact hfree⟩
  · rintro ⟨hnb, hfree⟩
    obtain ⟨h1, h2, h3, h4⟩ := inBounds_mk.mp hnb
    have hbd : 0 < pos.x := by
      have h1' : (0 : Int) ≤ pos.x - 1 := h1
      omega
    obtain ⟨hnU, _⟩ := hkey hbd
    have hnbB := toIdx_bounds hcx hnb
    rw [toIdx_west] at hnbB
    refine ⟨hbd, (cellCheck_iff cells _).mpr ⟨?_, ?_⟩⟩
    · rw [← hnU, Pos.toIdxU, toIdx_west, usizeOf_small hnbB.1 (by omega)]
      omega
    · rw [← hnU]; exact hfree

theorem southCheck_iff {cx cy : Int} {cells : List Nat} {pos : Pos}
    (hcx : 0 < cx) (hcy : 0 < cy) (hsmall : cx * cy < 2147483648)
    (hlen : (cells.length : Int) = cx * cy) (hpos : inBounds pos cx cy) :
    (pos.y + 1 < cy ∧ cellCheck cells (pos.toIdxU cx + usizeOf cx)) ↔
      (inBounds (Pos.mk pos.x (pos.y + 1)) cx cy ∧
        cells.getD ((Pos.mk pos.x (pos.y + 1)).toIdxU cx) 1 = 0) := by
  obtain ⟨hx0, hx1, hy0, hy1⟩ := hpos
  have hib := toIdx_bounds hcx ⟨hx0, hx1, hy0, hy1⟩
  have hcxle : cx ≤ cx * cy := le_mul_of_one_le_right hcx.le (by omega)
  have hiU : pos.toIdxU cx = (pos.toIdx cx).toNat :=
    usizeOf_small hib.1 (by omega)
  have hcxU : usizeOf cx = cx.toNat := usizeOf_small hcx.le (by omega)
  have hkey : pos.y + 1 < cy →
      ((Pos.mk pos.x (pos.y + 1)).toIdxU cx =
        pos.toIdxU cx + usizeOf cx ∧
        inBounds (Pos.mk pos.x (pos.y + 1)) cx cy) := by
    intro hbd
    have hnb : inBounds (Pos.mk pos.x (pos.y + 1)) cx cy :=
      inBounds_mk.mpr ⟨hx0, hx1, by omega, hbd⟩
    have hnbB := toIdx_bounds hcx hnb
    rw [toIdx_south] at hnbB
    refine ⟨?_, hnb⟩
    rw [Pos.toIdxU, toIdx_south, usizeOf_small hnbB.1 (by omega), hiU, hcxU]
    omega
  constructor
  · rintro ⟨hbd, hck⟩
    obtain ⟨hlt, hfree⟩ := (cellCheck_iff cells _).mp hck
    obtain ⟨hnU, hnb⟩ := hkey hbd
    exact ⟨hnb, by rw [hnU]; exact hfree⟩
  · rintro ⟨hnb, hfree⟩
    obtain ⟨h1, h2, h3, h4⟩ := inBounds_mk.mp hnb
    have hbd : pos.y + 1 < cy := h4
    obtain ⟨hnU, _⟩ := hkey hbd
    have hnbB := toIdx_bounds hcx hnb
    rw [toIdx_south] at hnbB
    refine ⟨hbd, (cellCheck_iff cells _).mpr ⟨?_, ?_⟩⟩
    · rw [← hnU, Pos.toIdxU, toIdx_south, usizeOf_small hnbB.1 (by omega)]
      omega
    · rw [← hnU]; exact hfree

theorem northCheck_iff {cx cy : Int} {cells : List Nat} {pos : Pos}
    (hcx : 0 < cx) (hcy : 0 < cy) (hsmall : cx * cy < 2147483648)
    (hlen : (cells.length : Int) = cx * cy) (hpos : inBounds pos cx cy) :
    (0 < pos.y ∧ cellCheck cells (wrapSub (pos.toIdxU cx) (usizeOf cx))) ↔
      (inBounds (Pos.mk pos.x (pos.y - 1)) cx cy ∧
        cells.getD ((Pos.mk pos.x (pos.y - 1)).toIdxU cx) 1 = 0) := by
  obtain ⟨hx0, hx1, hy0, hy1⟩ := hpos
  have hib := toIdx_bounds hcx ⟨hx0, hx1, hy0, hy1⟩
  have hcxle : cx ≤ cx * cy := le_mul_of_one_le_right hcx.le (by omega)
  have hiU : pos.toIdxU cx = (pos.toIdx cx).toNat :=
    usizeOf_small hib.1 (by omega)
  have hcxU : usizeOf cx = cx.toNat := usizeOf_small hcx.le (by omega)
  have hkey : 0 < pos.y →
      ((Pos.mk pos.x (pos.y - 1)).toIdxU cx =
        wrapSub (pos.toIdxU cx) (usizeOf cx) ∧
        inBounds (Pos.mk pos.x (pos.y - 1)) cx cy) := by
    intro hbd
    have hgecx : cx ≤ pos.toIdx cx := by
      have h := le_mul_of_one_le_left hcx.le (show (1 : Int) ≤ pos.y by omega)
      unfold Pos.toIdx at *; omega
    have hnb : inBounds (Pos.mk pos.x (pos.y - 1)) cx cy :=
      inBounds_mk.mpr ⟨hx0, hx1, by omega, by omega⟩
    have hw : wrapSub (pos.toIdxU cx) (usizeOf cx) =
        pos.toIdxU cx - usizeOf cx :=
      wrapSub_small (by rw [hiU, hcxU]; omega) (by rw [hiU]; omega)
    refine ⟨?_, hnb⟩
    rw [Pos.toIdxU, toIdx_north, usizeOf_small (by omega) (by omega), hw, hiU,
      hcxU]
    omega
  constructor
  · rintro ⟨hbd, hck⟩
    obtain ⟨hlt, hfree⟩ := (cellCheck_iff cells _).mp hck
    obtain ⟨hnU, hnb⟩ := hkey hbd
    exact ⟨hnb, by rw [hnU]; exact hfree⟩
  · rintro ⟨hnb, hfree⟩
    obtain ⟨h1, h2, h3, h4⟩ := inBounds_mk.mp hnb
    have hbd : 0 < pos.y := by
      have h3' : (0 : Int) ≤ pos.y - 1 := h3
      omega
    obtain ⟨hnU, _⟩ := hkey hbd
    have hnbB := toIdx_bounds hcx hnb
    rw [toIdx_north] at hnbB
    refine ⟨hbd, (cellCheck_iff cells _).mpr ⟨?_, ?_⟩⟩
    · rw [← hnU, Pos.toIdxU, toIdx_north, usizeOf_small hnbB.1 (by omega)]
      omega
    · rw [← hnU]; exact hfree

theorem mem_getFreeFields_iff {cx cy : Int} {cells : List Nat} {pos p : Pos}
    (hcx : 0 < cx) (hcy : 0 < cy) (hsmall : cx * cy < 2147483648)
    (hlen : (cells.length : Int) = cx * cy) (hpos : inBounds pos cx cy) :
    p ∈ getFreeFields pos cells cx cy ↔
      isStepNeighbor p pos ∧ inBounds p cx cy ∧
        cells.getD (p.toIdxU cx) 1 = 0 := by
  have hmem : p ∈ getFreeFields pos cells cx cy ↔
      ((pos.x + 1 < cx ∧ cellCheck cells (pos.toIdxU cx + 1)) ∧
        p = Pos.mk (pos.x + 1) pos.y) ∨
      ((0 < pos.x ∧ cellCheck cells (wrapSub (pos.toIdxU cx) 1)) ∧
        p = Pos.mk (pos.x - 1) pos.y) ∨
      ((pos.y + 1 < cy ∧ cellCheck cells (pos.toIdxU cx + usizeOf cx)) ∧
        p = Pos.mk pos.x (pos.y + 1)) ∨
      ((0 < pos.y ∧ cellCheck cells (wrapSub (pos.toIdxU cx)
        (usizeOf cx))) ∧ p = Pos.mk pos.x (pos.y - 1)) := by
    simp only [getFreeFields, List.mem_append, mem_ite_singleton, or_assoc]
  rw [hmem, eastCheck_iff hcx hcy hsmall hlen hpos,
    westCheck_iff hcx hcy hsmall hlen hpos,
    southCheck_iff hcx hcy hsmall hlen hpos,
    northCheck_iff hcx hcy hsmall hlen hpos]
  constructor
  · rintro (⟨⟨hb, hf⟩, hq⟩ | ⟨⟨hb, hf⟩, hq⟩ | ⟨⟨hb, hf⟩, hq⟩ | ⟨⟨hb, hf⟩, hq⟩)
    · exact ⟨Or.inl hq, by rw [hq]; exact hb, by rw [hq]; exact hf⟩
    · exact ⟨Or.inr (Or.inl hq), by rw [hq]; exact hb, by rw [hq]; exact hf⟩
    · exact ⟨Or.inr (Or.inr (Or.inl hq)), by rw [hq]; exact hb,
        by rw [hq]; exact hf⟩
    · exact ⟨Or.inr (Or.inr (Or.inr hq)), by rw [hq]; exact hb,
        by rw [hq]; exact hf⟩
  · rintro ⟨hnbr, hb, hf⟩
    rcases hnbr with hq | hq | hq | hq
    · exact Or.inl ⟨⟨by rw [← hq]; exact hb, by rw [← hq]; exact hf⟩, hq⟩
    · exact Or.inr (Or.inl ⟨⟨by rw [← hq]; exact hb, by rw [← hq]; exact hf⟩,
        hq⟩)
    · exact Or.inr (Or.inr (Or.inl ⟨⟨by rw [← hq]; exact hb,
        by rw [← hq]; exact hf⟩, hq⟩))
    · exact Or.inr (Or.inr (Or.inr ⟨⟨by rw [← hq]; exact hb,
        by rw [← hq]; exact hf⟩, hq⟩))

theorem pos_eq_of_beq {f e : Pos} (h : (f.x == e.x && f.y == e.y) = true) :
    f = e := by
  cases f; cases e
  simp_all [beq_iff_eq]

theorem go_one_sound (fuel : Nat) {b : Branch} {cells : List Nat}
    {cx cy : Int} {ltb msb ar pk : Nat} {b' : Branch} {m : Pos}
    (hrun : b.state = BranchState.Running)
    (hff : (getFreeFields b.pos cells cx cy).isEmpty = false)
    (h : findNextMoveGo (fuel + 1) b cells cx cy ltb msb ar pk =
      (b', some m)) :
    b'.pos = b.pos ∧ b'.ownFields = b.ownFields ∧
      m ∈ getFreeFields b.pos cells cx cy := by
  have hlen : 0 < (getFreeFields b.pos cells cx cy).length := by
    cases hgf : getFreeFields b.pos cells cx cy with
    | nil => rw [hgf] at hff; simp at hff
    | cons a l => simp
  unfold findNextMoveGo at h
  rw [if_neg (by rw [hrun]; simp)] at h
  rw [if_neg (by rw [hff]; simp)] at h
  by_cases c1 : b.lifeTime - b.age < ltb
  · rw [if_pos c1] at h
    simp only [Prod.mk.injEq, Option.some.injEq] at h
    obtain ⟨hb, hm⟩ := h
    subst hb
    refine ⟨rfl, rfl, ?_⟩
    rw [← hm]
    exact getD_mem _ (Nat.mod_lt _ hlen)
  · rw [if_neg c1] at h
    by_cases c2 : b.mode = BranchMode.Land
    · rw [if_pos c2] at h
      by_cases c3 : (getFreeFields b.pos cells cx cy).any
          (fun f => f.x == (Pos.mk (b.pos.x + b.expandDirection.x)
            (b.pos.y + b.expandDirection.y)).x &&
            f.y == (Pos.mk (b.pos.x + b.expandDirection.x)
            (b.pos.y + b.expandDirection.y)).y) = true
      · rw [if_pos c3] at h
        simp only [Prod.mk.injEq, Option.some.injEq] at h
        obtain ⟨hb, hm⟩ := h
        subst hb
        refine ⟨rfl, rfl, ?_⟩
        have hmm : m ∈ getFreeFields b.pos cells cx cy ++
            List.replicate 10 (Pos.mk (b.pos.x + b.expandDirection.x)
              (b.pos.y + b.expandDirection.y)) := by
          rw [← hm]
          refine getD_mem _ (Nat.mod_lt _ ?_)
          simp only [List.length_append]
          omega
        rcases List.mem_append.mp hmm with hmem | hmem
        · exact hmem
        · obtain ⟨f, hfmem, hfeq⟩ := List.any_eq_true.mp c3
          have hfe : f = Pos.mk (b.pos.x + b.expandDirection.x)
              (b.pos.y + b.expandDirection.y) := pos_eq_of_beq hfeq
          rw [List.eq_of_mem_replicate hmem, ← hfe]
          exact hfmem
      · rw [if_neg c3] at h
        simp only [Prod.mk.injEq, Option.some.injEq] at h
        obtain ⟨hb, hm⟩ := h
        subst hb
        refine ⟨rfl, rfl, ?_⟩
        rw [← hm]
        exact getD_mem _ (Nat.mod_lt _ hlen)
    · rw [if_neg c2] at h
      simp only [Prod.mk.injEq, Option.some.injEq] at h
      obtain ⟨hb, hm⟩ := h
      subst hb
      refine ⟨rfl, rfl, ?_⟩
      rw [← hm]
      exact getD_mem _ (Nat.mod_lt _ hlen)

theorem moveToNewPos_sound {b : Branch} {cells : List Nat} {cx cy : Int}
    {msb : Nat} {p : Pos} (h : moveToNewPos b cells cx cy msb = some p) :
    p ∈ b.ownFields ∧ (getFreeFields p cells cx cy).isEmpty = false := by
  unfold moveToNewPos at h
  constructor
  · exact List.mem_of_mem_drop (List.mem_reverse.mp (List.mem_of_find?_eq_some h))
  · have := List.find?_some h
    simpa using this

theorem findNextMove_sound {b : Branch} {cells : List Nat} {cx cy : Int}
    {ltb msb ar pk : Nat} {b' : Branch} {m : Pos}
    (h : findNextMove b cells cx cy ltb msb ar pk = (b', some m)) :
    (b'.pos = b.pos ∨ b'.pos ∈ b.ownFields) ∧ b'.ownFields = b.ownFields ∧
      m ∈ getFreeFields b'.pos cells cx cy := by
  unfold findNextMove at h
  by_cases hrun : b.state = BranchState.Running
  · by_cases hff : (getFreeFields b.pos cells cx cy).isEmpty = true
    · unfold findNextMoveGo at h
      rw [if_neg (by rw [hrun]; simp)] at h
      rw [if_pos hff] at h
      cases hmv : moveToNewPos b cells cx cy msb with
      | none => rw [hmv] at h; simp at h
      | some p =>
        rw [hmv] at h
        obtain ⟨hpmem, hpff⟩ := moveToNewPos_sound hmv
        obtain ⟨h1, h2, h3⟩ := go_one_sound 0
          (b := { b with pos := p }) (by simpa using hrun) (by simpa using hpff) h
        refine ⟨Or.inr ?_, by simpa using h2, ?_⟩
        · rw [show b'.pos = p from h1]; exact hpmem
        · rw [h1]; exact h3
    · obtain ⟨h1, h2, h3⟩ := go_one_sound 1 hrun
        (by simpa using hff) h
      exact ⟨Or.inl h1, h2, by rw [h1]; exact h3⟩
  · unfold findNextMoveGo at h
    rw [if_pos (by simp [hrun])] at h
    simp at h

theorem modeTransition_frame (b : Branch) (cells : List Nat) (cx cy : Int)
    (p1 p2 roll : ℚ) (dp ar2 : Nat) :
    (modeTransition b cells cx cy p1 p2 roll dp ar2).pos = b.pos ∧
    (modeTransition b cells cx cy p1 p2 roll dp ar2).ownFields = b.ownFields ∧
    (modeTransition b cells cx cy p1 p2 roll dp ar2).state = b.state := by
  unfold modeTransition setExpandDirection
  split_ifs <;> try simp
  all_goals split_ifs <;> simp

/-! ### Claims -/

/-- C1.  No-overlap invariant: whenever a growth tick commits a move chosen
by `find_next_move` for a branch — on any in-bounds simulation state — the
destination cell holds 0 in the cell array the move was chosen against
(the state immediately before the commit) and holds 1 in the returned cell
array (the state immediately after the commit `cells[to_idx] = 1`). -/
theorem C1_no_overlap {cfg : Config} {size : ℚ} {b b' : Branch}
    {cells cells' : List Nat} {cx cy : Int} {r : TickRand} {m : Pos}
    (hcx : 0 < cx) (hcy : 0 < cy) (hsmall : cx * cy < 2147483648)
    (hlen : (cells.length : Int) = cx * cy)
    (hpos : inBounds b.pos cx cy)
    (hfields : ∀ p ∈ b.ownFields, inBounds p cx cy)
    (h : tickBranch cfg size b cells cx cy r = (b', cells', some m)) :
    cells.getD (m.toIdxU cx) 1 = 0 ∧ cells'.getD (m.toIdxU cx) 0 = 1 := by
  have hframe := modeTransition_frame b cells cx cy cfg.propCityToLand
    cfg.propLandToCity r.roll r.dirPick r.ageReroll2
  by_cases hdeath : b.lifeTime ≤ b.age
  · exfalso
    unfold tickBranch at h
    rw [if_pos hdeath] at h
    simp at h
  · cases hstep : findNextMove (modeTransition b cells cx cy cfg.propCityToLand
        cfg.propLandToCity r.roll r.dirPick r.ageReroll2) cells cx cy
        cfg.lifeTimeBranch cfg.maxStepsBack r.ageReroll r.movePick with
    | mk b2 o =>
      cases o with
      | none =>
        exfalso
        simp only [tickBranch, if_neg hdeath, hstep] at h
        simp at h
      | some np =>
        simp only [tickBranch, if_neg hdeath, hstep] at h
        obtain ⟨hb', hcells', hm⟩ : _ ∧ cells.set (np.toIdxU cx) 1 = cells' ∧
            some np = some m := by
          simpa [Prod.ext_iff] using h
        have hnp : np = m := by simpa using hm
        subst hnp
        obtain ⟨hposOr, hof, hmem⟩ := findNextMove_sound hstep
        have hpos2 : inBounds b2.pos cx cy := by
          rcases hposOr with heq | hin
          · rw [heq, hframe.1]; exact hpos
          · rw [hframe.2.1] at hin
            exact hfields _ hin
        obtain ⟨_, hmb, hfree⟩ :=
          (mem_getFreeFields_iff hcx hcy hsmall hlen hpos2).mp hmem
        have hmB := toIdx_bounds hcx hmb
        have hmU : np.toIdxU cx = (np.toIdx cx).toNat :=
          usizeOf_small hmB.1 (by omega)
        have hlt : np.toIdxU cx < cells.length := by rw [hmU]; omega
        refine ⟨hfree, ?_⟩
        rw [← hcells']
        rw [getD_set_self hlt]

/-- C1, witness: a concrete tick on a 2×2 grid where the branch at (0,0)
moves east to (1,0); that cell reads 0 before the commit and 1 after. -/
theorem C1_no_overlap_witness :
    ([1, 0, 0, 0] : List Nat).getD ((Pos.mk 1 0).toIdxU 2) 1 = 0 ∧
    ((tickBranch sampleConfig 3 sampleBranch [1, 0, 0, 0] 2 2
      sampleRand).2.1).getD ((Pos.mk 1 0).toIdxU 2) 0 = 1 := by
  have h : tickBranch sampleConfig 3 sampleBranch [1, 0, 0, 0] 2 2 sampleRand =
      ((tickBranch sampleConfig 3 sampleBranch [1, 0, 0, 0] 2 2 sampleRand).1,
        (tickBranch sampleConfig 3 sampleBranch [1, 0, 0, 0] 2 2
          sampleRand).2.1, some (Pos.mk 1 0)) := by decide
  exact C1_no_overlap (by decide) (by decide) (by decide) (by decide)
    (by decide) (by decide) h

/-! ### Reverse-engine lemmas -/

theorem concatAll_append (L1 L2 : List (List α)) :
    concatAll (L1 ++ L2) = concatAll L1 ++ concatAll L2 := by
  induction L1 with
  | nil => simp [concatAll]
  | cons x L ih => simp [concatAll, ih, List.append_assoc]

theorem reverseSteps_reconstruct (ks : List Nat) (h : List α) :
    remainingAfter ks h ++ concatAll ((reverseSteps ks h).reverse) = h := by
  induction ks generalizing h with
  | nil => simp [remainingAfter, reverseSteps, concatAll]
  | cons k ks ih =>
    simp only [remainingAfter, reverseSteps, List.reverse_cons, concatAll_append]
    rw [show concatAll [h.drop (h.length - min h.length k)] =
      h.drop (h.length - min h.length k) by simp [concatAll]]
    rw [← List.append_assoc, ih]
    exact List.take_append_drop _ h

theorem concatAll_map_reverse (L : List (List α)) :
    concatAll (L.map List.reverse) = (concatAll L.reverse).reverse := by
  induction L with
  | nil => simp [concatAll]
  | cons x L ih =>
    simp [concatAll, concatAll_append, List.reverse_append, ih]

/-- C2, counterexample: with a per-step budget of 2 actions, the reverse
engine drains a four-entry history in two steps, yet the concatenation of
the removed sequences is not the reverse of the history — each drained
block keeps its internal (oldest-first) order. -/
theorem C2_lifo_counterexample :
    remainingAfter [2, 2] sampleHistory = [] ∧
    concatAll (reverseSteps [2, 2] sampleHistory) ≠ sampleHistory.reverse := by
  decide

/-- C2, amended.  LIFO erase law at block granularity: each reverse step
removes a suffix block of the branch's history (in internal oldest-first
order, as `Vec::drain` yields it); once the reverse phase has drained the
whole history, concatenating the removed blocks in reverse step order
reproduces the appended sequence exactly — equivalently, reversing each
removed block and concatenating in step order yields the exact reverse of
the appended sequence. -/
theorem C2_lifo_amended {ks : List Nat} {h : List DrawAction}
    (hdone : remainingAfter ks h = []) :
    concatAll ((reverseSteps ks h).reverse) = h ∧
    concatAll ((reverseSteps ks h).map List.reverse) = h.reverse := by
  have key := reverseSteps_reconstruct ks h
  rw [hdone, List.nil_append] at key
  exact ⟨key, by rw [concatAll_map_reverse, key]⟩

/-- C2 amended, witness: the concrete drained run of the counterexample
satisfies the block-granularity round trip. -/
theorem C2_lifo_amended_witness :
    concatAll ((reverseSteps [2, 2] sampleHistory).reverse) = sampleHistory ∧
    concatAll ((reverseSteps [2, 2] sampleHistory).map List.reverse) =
      sampleHistory.reverse :=
  C2_lifo_amended (by decide)

/-- C3.  Population-scaled branching bound: for every branch in the active
list at the start of the branching pass (so the population size
`n = branch_list.len()` is at least 1), the chance the engine rolls against
for that branch equals `base_chance(mode) * (1 + falloff) / (falloff + n)`
exactly, with `base_chance` selected by the branch's mode. -/
theorem C3_population_scaled_chance {cfg : Config} {bs : List Branch}
    {b : Branch} (hmem : b ∈ bs) :
    engineBranchChance cfg b.mode ((bs.length : ℚ)) =
      specBranchChance (specBaseChance cfg b.mode) cfg.branchFallOff
        ((bs.length : ℚ)) ∧ (1 : ℚ) ≤ ((bs.length : ℚ)) := by
  constructor
  · cases hm : b.mode <;>
      simp [engineBranchChance, specBranchChance, specBaseChance,
        scaledBranchOff, scaledBranchOffLand, hm]
  · have hpos : 0 < bs.length :=
      List.length_pos.mpr (by rintro rfl; simp at hmem)
    exact_mod_cast hpos

/-- C3, witness: a singleton active list (n = 1). -/
theorem C3_population_scaled_chance_witness :
    engineBranchChance sampleConfig sampleBranch.mode
        ((([sampleBranch] : List Branch).length : ℚ)) =
      specBranchChance (specBaseChance sampleConfig sampleBranch.mode)
        sampleConfig.branchFallOff
        ((([sampleBranch] : List Branch).length : ℚ)) ∧
    (1 : ℚ) ≤ ((([sampleBranch] : List Branch).length : ℚ)) :=
  C3_population_scaled_chance (by decide)

/-- C9.  Neighbour-arithmetic safety: on an in-bounds position of a
well-formed grid, membership in `get_free_fields` is exactly "axis-aligned
neighbour, in bounds, and that very neighbour's cell reads 0".  Every cell
read in the embedding is the guarded read of the source (`check_idx <
cells.len()` dominates the index), so no access panics, and the iff shows
out-of-grid arithmetic (including the `usize` wrap of West/North at the
grid edge) only ever excludes the neighbour — it never reads a different
in-bounds cell as that neighbour. -/
theorem C9_neighbor_safety {cx cy : Int} {cells : List Nat} {pos p : Pos}
    (hcx : 0 < cx) (hcy : 0 < cy) (hsmall : cx * cy < 2147483648)
    (hlen : (cells.length : Int) = cx * cy) (hpos : inBounds pos cx cy) :
    p ∈ getFreeFields pos cells cx cy ↔
      isStepNeighbor p pos ∧ inBounds p cx cy ∧
        cells.getD (p.toIdxU cx) 1 = 0 :=
  mem_getFreeFields_iff hcx hcy hsmall hlen hpos

/-- C9, witness: the east neighbour on a concrete 2×2 grid. -/
theorem C9_neighbor_safety_witness :
    (Pos.mk 1 0 ∈ getFreeFields (Pos.mk 0 0) [1, 0, 0, 0] 2 2) ↔
      (isStepNeighbor (Pos.mk 1 0) (Pos.mk 0 0) ∧ inBounds (Pos.mk 1 0) 2 2 ∧
        ([1, 0, 0, 0] : List Nat).getD ((Pos.mk 1 0).toIdxU 2) 1 = 0) :=
  C9_neighbor_safety (by decide) (by decide) (by decide) (by decide)
    (by decide)

/-- C5, counterexample: a tick on which the late-life override applies
(`life_time - age = 1 < life_time_branch`), yet the probabilistic mode
transition of `update` still runs first: its Land→City age reroll drops the
age to 0, so the engine tick ends with age 1, while the claimed
order/skip semantics (`tickBranchSpecC5`) would end with age 6.  The mode
transition is therefore neither preceded by the override nor skipped. -/
theorem C5_override_counterexample :
    (tickBranch sampleConfig 3 sampleLandBranch [1, 0, 0, 0] 2 2
      sampleRollZero).1.age = 1 ∧
    (tickBranchSpecC5 sampleConfig 3 sampleLandBranch [1, 0, 0, 0] 2 2
      sampleRollZero).1.age = 6 ∧
    tickBranch sampleConfig 3 sampleLandBranch [1, 0, 0, 0] 2 2
      sampleRollZero ≠
    tickBranchSpecC5 sampleConfig 3 sampleLandBranch [1, 0, 0, 0] 2 2
      sampleRollZero := by
  decide

/-- C5, amended.  The late-life override lives inside `find_next_move`,
which runs after the update-phase mode transition (whose side effects —
expand-direction resampling or age reroll — persist, see the
counterexample).  On a move where the override condition holds at
`find_next_move` time and the current position has a free neighbour, the
branch is forced to City, the Land directional handling inside
`find_next_move` is skipped entirely (no 10× duplication, no age reroll,
no expand-direction change), and the move is drawn uniformly from the
plain free-neighbour list. -/
theorem C5_override_amended {b : Branch} {cells : List Nat} {cx cy : Int}
    {ltb msb ar pk : Nat}
    (hrun : b.state = BranchState.Running)
    (hff : (getFreeFields b.pos cells cx cy).isEmpty = false)
    (hover : b.lifeTime - b.age < ltb) :
    findNextMove b cells cx cy ltb msb ar pk =
      ({ b with mode := BranchMode.City },
        some ((getFreeFields b.pos cells cx cy).getD
          (pk % (getFreeFields b.pos cells cx cy).length) b.pos)) := by
  unfold findNextMove findNextMoveGo
  rw [if_neg (by rw [hrun]; simp), if_neg (by rw [hff]; simp), if_pos hover]

/-- C5 amended, witness: `sampleBranch` has `life_time - age = 10 < 15`. -/
theorem C5_override_amended_witness :
    findNextMove sampleBranch [1, 0, 0, 0] 2 2 15 300 0 0 =
      ({ sampleBranch with mode := BranchMode.City },
        some ((getFreeFields sampleBranch.pos [1, 0, 0, 0] 2 2).getD
          (0 % (getFreeFields sampleBranch.pos [1, 0, 0, 0] 2 2).length)
          sampleBranch.pos)) :=
  C5_override_amended (by decide) (by decide) (by decide)

/-- C6, counterexample: a Land-mode branch with a blocked directional
target moves to the free neighbour (1, 0), so the "offset actually taken"
is (1, 0) — but `expand_direction` is left at (5, 5), not updated; the
branch instead switches to City mode. -/
theorem C6_land_blocked_counterexample :
    (findNextMove sampleBlockedBranch [1, 0, 0, 0] 2 2 15 300 2 0).2 =
      some (Pos.mk 1 0) ∧
    (findNextMove sampleBlockedBranch [1, 0, 0, 0] 2 2 15 300 2
      0).1.expandDirection ≠ Pos.mk (1 - 0) (0 - 0) ∧
    (findNextMove sampleBlockedBranch [1, 0, 0, 0] 2 2 15 300 2
      0).1.expandDirection = Pos.mk 5 5 := by
  decide

/-- C6, amended.  Land-mode blocked-target behaviour: when the directional
target is not among the free neighbours (and the late-life override does
not apply), the branch switches to City mode, rerolls its age to the drawn
value in `[0, age]`, keeps `expand_direction` unchanged, and the move is
drawn uniformly from the plain free-neighbour list. -/
theorem C6_land_blocked_amended {b : Branch} {cells : List Nat} {cx cy : Int}
    {ltb msb ar pk : Nat}
    (hrun : b.state = BranchState.Running)
    (hff : (getFreeFields b.pos cells cx cy).isEmpty = false)
    (hnoover : ¬ b.lifeTime - b.age < ltb)
    (hland : b.mode = BranchMode.Land)
    (hblocked : ((getFreeFields b.pos cells cx cy).any
      (fun f => f.x == (Pos.mk (b.pos.x + b.expandDirection.x)
        (b.pos.y + b.expandDirection.y)).x &&
        f.y == (Pos.mk (b.pos.x + b.expandDirection.x)
        (b.pos.y + b.expandDirection.y)).y)) = false)
    (har : ar ≤ b.age) :
    findNextMove b cells cx cy ltb msb ar pk =
      ({ b with mode := BranchMode.City, age := ar },
        some ((getFreeFields b.pos cells cx cy).getD
          (pk % (getFreeFields b.pos cells cx cy).length) b.pos)) := by
  unfold findNextMove findNextMoveGo
  rw [if_neg (by rw [hrun]; simp), if_neg (by rw [hff]; simp),
    if_neg hnoover, if_pos hland, if_neg (by rw [hblocked]; simp)]

/-- C6 amended, witness: the blocked branch of the counterexample, with an
age reroll of 2 ≤ 3. -/
theorem C6_land_blocked_amended_witness :
    findNextMove sampleBlockedBranch [1, 0, 0, 0] 2 2 15 300 2 0 =
      ({ sampleBlockedBranch with mode := BranchMode.City, age := 2 },
        some ((getFreeFields sampleBlockedBranch.pos [1, 0, 0, 0] 2 2).getD
          (0 % (getFreeFields sampleBlockedBranch.pos [1, 0, 0, 0] 2
            2).length) sampleBlockedBranch.pos)) :=
  C6_land_blocked_amended (by decide) (by decide) (by decide) (by decide)
    (by decide) (by decide)

/-- C7.  Branch-off precondition and failure atomicity: a branch whose
`own_fields` has length 1 never produces a child (whatever the random
draws), and whenever `branch_off` fails (no child), the parent record —
state, mode, position, `own_fields`, history, colors — and the cell array
are completely unchanged. -/
theorem C7_branch_off_atomicity (b : Branch) (cells : List Nat) (cx cy : Int)
    (size : ℚ) (ltb : Nat) (fc : Bool) (lb : ℚ) (pick : Nat) (ch : ℚ) :
    (b.ownFields.length = 1 →
      (branchOff b cells cx cy size ltb fc lb pick ch).child = none) ∧
    ((branchOff b cells cx cy size ltb fc lb pick ch).child = none →
      (branchOff b cells cx cy size ltb fc lb pick ch).parent = b ∧
      (branchOff b cells cx cy size ltb fc lb pick ch).cellsAfter = cells) := by
  unfold branchOff
  by_cases h1 : b.ownFields.length ≤ 1
  · rw [if_pos h1]
    exact ⟨fun _ => rfl, fun _ => ⟨rfl, rfl⟩⟩
  · rw [if_neg h1]
    by_cases h2 : (getFreeFields (b.ownFields.getD (b.ownFields.length - 1)
        b.pos) cells cx cy).isEmpty = true
    · rw [if_pos h2]
      exact ⟨fun _ => rfl, fun _ => ⟨rfl, rfl⟩⟩
    · rw [if_neg h2]
      refine ⟨fun hlen => absurd hlen (by omega), fun hnone => ?_⟩
      exact absurd hnone (by simp)

/-- C7, witness: a never-moved branch (`own_fields = [pos]`) fails to
branch off and leaves parent and grid untouched. -/
theorem C7_branch_off_atomicity_witness :
    (branchOff sampleBranch [1, 0, 0, 0] 2 2 3 15 true 20 0 0).child = none ∧
    (branchOff sampleBranch [1, 0, 0, 0] 2 2 3 15 true 20 0 0).parent =
      sampleBranch ∧
    (branchOff sampleBranch [1, 0, 0, 0] 2 2 3 15 true 20 0 0).cellsAfter =
      [1, 0, 0, 0] := by
  have h := C7_branch_off_atomicity sampleBranch [1, 0, 0, 0] 2 2 3 15
    true 20 0 0
  have hc := h.1 (by decide)
  exact ⟨hc, (h.2 hc).1, (h.2 hc).2⟩

/-- C10.  Frame effect of a successful branch-off: the cell array is left
completely unchanged — in particular the child's spawn cell still reads 0
(it was a free neighbour and nothing marks it) — while the parent's
current position becomes the spawn cell, the spawn cell is appended to the
parent's `own_fields`, and the spawned child also sits at that cell. -/
theorem C10_branch_off_frame (b : Branch) (cells : List Nat) (cx cy : Int)
    (size : ℚ) (ltb : Nat) (fc : Bool) (lb : ℚ) (pick : Nat) (ch : ℚ)
    (hcx : 0 < cx) (hcy : 0 < cy) (hsmall : cx * cy < 2147483648)
    (hlen : (cells.length : Int) = cx * cy)
    (hfields : ∀ p ∈ b.ownFields, inBounds p cx cy)
    (hlen1 : 1 < b.ownFields.length)
    (hff : (getFreeFields (searchPosOf b) cells cx cy).isEmpty = false) :
    (branchOff b cells cx cy size ltb fc lb pick ch).cellsAfter = cells ∧
    cells.getD ((spawnPosOf b cells cx cy pick).toIdxU cx) 1 = 0 ∧
    (branchOff b cells cx cy size ltb fc lb pick ch).parent.pos =
      spawnPosOf b cells cx cy pick ∧
    (branchOff b cells cx cy size ltb fc lb pick ch).parent.ownFields =
      b.ownFields ++ [spawnPosOf b cells cx cy pick] ∧
    ∃ c, (branchOff b cells cx cy size ltb fc lb pick ch).child = some c ∧
      c.pos = spawnPosOf b cells cx cy pick := by
  have hsp : inBounds (searchPosOf b) cx cy := by
    refine hfields _ ?_
    unfold searchPosOf
    exact getD_mem _ (by omega)
  have hlenff : 0 < (getFreeFields (searchPosOf b) cells cx cy).length := by
    cases hgf : getFreeFields (searchPosOf b) cells cx cy with
    | nil => rw [hgf] at hff; simp at hff
    | cons a l => simp
  have hmemspawn : spawnPosOf b cells cx cy pick ∈
      getFreeFields (searchPosOf b) cells cx cy := by
    unfold spawnPosOf
    exact getD_mem _ (Nat.mod_lt _ hlenff)
  have hfree := ((mem_getFreeFields_iff hcx hcy hsmall hlen hsp).mp
    hmemspawn).2.2
  unfold branchOff
  rw [if_neg (by omega), if_neg (by rw [show (getFreeFields
    (b.ownFields.getD (b.ownFields.length - 1) b.pos) cells cx cy) =
    getFreeFields (searchPosOf b) cells cx cy from rfl, hff]; simp)]
  refine ⟨rfl, hfree, ?_, ?_, ?_⟩
  · simp [createLine, spawnPosOf, searchPosOf]
  · simp [createLine, spawnPosOf, searchPosOf]
  · exact ⟨_, rfl, by simp [createLine, Branch.new, spawnPosOf, searchPosOf]⟩

/-- C10, witness: on the 2×2 grid with column 0 occupied, the moved branch
spawns at (1, 1); the grid is unchanged and (1, 1) still reads 0. -/
theorem C10_branch_off_frame_witness :
    (branchOff sampleMovedBranch [1, 1, 0, 0] 2 2 3 15 true 20 0
      0).cellsAfter = [1, 1, 0, 0] ∧
    ([1, 1, 0, 0] : List Nat).getD
      ((spawnPosOf sampleMovedBranch [1, 1, 0, 0] 2 2 0).toIdxU 2) 1 = 0 ∧
    (branchOff sampleMovedBranch [1, 1, 0, 0] 2 2 3 15 true 20 0
      0).parent.pos = spawnPosOf sampleMovedBranch [1, 1, 0, 0] 2 2 0 ∧
    (branchOff sampleMovedBranch [1, 1, 0, 0] 2 2 3 15 true 20 0
      0).parent.ownFields = sampleMovedBranch.ownFields ++
        [spawnPosOf sampleMovedBranch [1, 1, 0, 0] 2 2 0] ∧
    ∃ c, (branchOff sampleMovedBranch [1, 1, 0, 0] 2 2 3 15 true 20 0
      0).child = some c ∧
      c.pos = spawnPosOf sampleMovedBranch [1, 1, 0, 0] 2 2 0 :=
  C10_branch_off_frame sampleMovedBranch [1, 1, 0, 0] 2 2 3 15 true 20 0 0
    (by decide) (by decide) (by decide) (by decide) (by decide) (by decide)
    (by decide)

/-! ### Seeding and monotonicity lemmas -/

theorem fromIdx_toIdxU (i : Nat) (cx : Int) (hi : (i : Int) < 2147483648) :
    (Pos.fromIdx i cx).toIdxU cx = i := by
  have h1 : (Pos.fromIdx i cx).toIdx cx = (i : Int) := by
    simp only [Pos.fromIdx, Pos.toIdx]
    ring
  rw [Pos.toIdxU, h1, usizeOf_small (Int.natCast_nonneg i) hi]
  omega

theorem getD_eq_default {α : Type _} (l : List α) (d : α) {j : Nat}
    (h : l.length ≤ j) : l.getD j d = d := by
  induction l generalizing j with
  | nil => simp [List.getD]
  | cons a l ih =>
    cases j with
    | zero => simp at h
    | succ j => simpa [List.getD] using ih (by simpa using h)

theorem getD_replicate_zero (n j : Nat) :
    (List.replicate n (0 : Nat)).getD j 0 = 0 := by
  induction n generalizing j with
  | zero => simp [List.getD]
  | succ n ih =>
    cases j with
    | zero => simp [List.replicate, List.getD]
    | succ j => simpa [List.replicate, List.getD] using ih j

theorem seedLoop_spec (cx : Int) (lt : Nat) (ld : ℚ) (seeds : List (Nat × ℚ))
    (cells : List Nat) (bl : List Branch)
    (hvalid : ∀ sd ∈ seeds, sd.1 < cells.length)
    (hsmall : (cells.length : Int) ≤ 2147483648) :
    (seedLoop cx lt ld seeds (cells, bl)).1.length = cells.length ∧
    (seedLoop cx lt ld seeds (cells, bl)).2.length = bl.length + seeds.length ∧
    ∀ j : Nat, (seedLoop cx lt ld seeds (cells, bl)).1.getD j 0 =
      if j ∈ seeds.map Prod.fst then 1 else cells.getD j 0 := by
  induction seeds generalizing cells bl with
  | nil => simp [seedLoop]
  | cons sd seeds ih =>
    obtain ⟨idx, hue⟩ := sd
    simp only [seedLoop]
    have hidx : idx < cells.length := hvalid (idx, hue) (List.mem_cons_self _ _)
    have hru : (Pos.fromIdx idx cx).toIdxU cx = idx :=
      fromIdx_toIdxU _ _ (by omega)
    rw [hru]
    have hlen2 : (cells.set idx 1).length = cells.length := by simp
    have ihh := ih (cells.set idx 1)
      (bl ++ [Branch.new (Pos.fromIdx idx cx) lt ld hue])
      (by intro sd hsd; rw [hlen2]; exact hvalid _ (List.mem_cons_of_mem _ hsd))
      (by rw [hlen2]; exact hsmall)
    refine ⟨by rw [ihh.1, hlen2], by rw [ihh.2.1]; simp; omega, ?_⟩
    intro j
    rw [ihh.2.2 j]
    simp only [List.map_cons, List.mem_cons]
    by_cases hj : j ∈ seeds.map Prod.fst
    · simp [hj]
    · by_cases hje : j = idx
      · subst hje
        rw [if_neg hj, if_pos (Or.inl rfl)]
        exact getD_set_self hidx
      · rw [if_neg hj, if_neg (by rintro (hc | hc); exacts [hje hc, hj hc]),
          getD_set_ne (fun hh => hje hh.symm)]

/-- C4, counterexample: reinitializing with `start_branches = 2` but with
both random seed indices landing on cell 0 leaves only one occupied cell,
not two — the seeding loop never re-draws a collided index. -/
theorem C4_cycle_counterexample :
    (initWithClear 4 2 8000 50 [(0, 0), (0, 0)]).2.length = 2 ∧
    occupiedCount (initWithClear 4 2 8000 50 [(0, 0), (0, 0)]).1 = 1 ∧
    (1 : Nat) ≠ 2 := by
  decide

/-- C4, amended.  Cycle reinitialization: after `initialize_with_clear`,
the branch list has exactly `start_branches` members, and the grid is
entirely unoccupied except exactly the sampled seed cells — cell `j` reads
1 iff `j` is one of the drawn seed indices, hence at most `start_branches`
occupied cells, and exactly `start_branches` when the draws are pairwise
distinct (they need not be, see the counterexample). -/
theorem C4_cycle_amended (cellCount : Nat) (cx : Int) (lt : Nat) (ld : ℚ)
    (seeds : List (Nat × ℚ))
    (hvalid : ∀ sd ∈ seeds, sd.1 < cellCount)
    (hsmall : (cellCount : Int) ≤ 2147483648) :
    (initWithClear cellCount cx lt ld seeds).1.length = cellCount ∧
    (initWithClear cellCount cx lt ld seeds).2.length = seeds.length ∧
    ∀ j : Nat, (initWithClear cellCount cx lt ld seeds).1.getD j 0 =
      if j ∈ seeds.map Prod.fst then 1 else 0 := by
  have h := seedLoop_spec cx lt ld seeds (List.replicate cellCount 0) []
    (by simpa using hvalid) (by simpa using hsmall)
  unfold initWithClear
  refine ⟨by rw [h.1]; simp, by rw [h.2.1]; simp, ?_⟩
  intro j
  rw [h.2.2 j]
  by_cases hj : j ∈ seeds.map Prod.fst
  · simp [hj]
  · simp [hj, getD_replicate_zero]

/-- C4 amended, witness: two distinct seeds 0 and 3 on a 2×2 grid. -/
theorem C4_cycle_amended_witness :
    (initWithClear 4 2 8000 50 [(0, 0), (3, 0)]).1.length = 4 ∧
    (initWithClear 4 2 8000 50 [(0, 0), (3, 0)]).2.length = 2 ∧
    (initWithClear 4 2 8000 50 [(0, 0), (3, 0)]).1.getD 0 0 = 1 ∧
    (initWithClear 4 2 8000 50 [(0, 0), (3, 0)]).1.getD 1 0 = 0 := by
  have h := C4_cycle_amended 4 2 8000 50 [(0, 0), (3, 0)] (by decide)
    (by decide)
  exact ⟨h.1, h.2.1, (h.2.2 0).trans (by decide), (h.2.2 1).trans (by decide)⟩

theorem set_one_preserves {cells : List Nat} {i j : Nat}
    (h : cells.getD j 0 = 1) : (cells.set i 1).getD j 0 = 1 := by
  have hjlt : j < cells.length := by
    by_contra hge
    rw [getD_eq_default _ _ (by omega)] at h
    exact absurd h (by omega)
  by_cases hij : i = j
  · subst hij
    rw [getD_set_self hjlt]
  · rw [getD_set_ne hij]
    exact h

theorem tickBranch_cells (cfg : Config) (size : ℚ) (b : Branch)
    (cells : List Nat) (cx cy : Int) (r : TickRand) :
    (tickBranch cfg size b cells cx cy r).2.1 = cells ∨
    ∃ i, (tickBranch cfg size b cells cx cy r).2.1 = cells.set i 1 := by
  by_cases hd : b.lifeTime ≤ b.age
  · simp only [tickBranch, if_pos hd]
    exact Or.inl (by trivial)
  · rcases hfm : findNextMove (modeTransition b cells cx cy cfg.propCityToLand
        cfg.propLandToCity r.roll r.dirPick r.ageReroll2) cells cx cy
        cfg.lifeTimeBranch cfg.maxStepsBack r.ageReroll r.movePick with ⟨b2, o⟩
    cases o with
    | none =>
      simp only [tickBranch, if_neg hd, hfm]
      exact Or.inl (by trivial)
    | some np =>
      simp only [tickBranch, if_neg hd, hfm]
      exact Or.inr ⟨np.toIdxU cx, rfl⟩

theorem steppingPass_preserves (cfg : Config) (size : ℚ) (cx cy : Int)
    (bs : List Branch) (trs : List TickRand) (cells : List Nat) {j : Nat}
    (h : cells.getD j 0 = 1) :
    ((steppingPass cfg size cx cy cells bs trs).1).getD j 0 = 1 := by
  induction bs generalizing cells trs with
  | nil => simpa [steppingPass] using h
  | cons b bs ih =>
    simp only [steppingPass]
    apply ih
    rcases tickBranch_cells cfg size b cells cx cy (trs.headD default) with
      hc | ⟨i, hc⟩
    · rw [hc]; exact h
    · rw [hc]; exact set_one_preserves h

theorem growthUpdate_preserves (cfg : Config) (size : ℚ) (cx cy : Int)
    (cells : List Nat) (bs : List Branch) (brs : List BranchRand)
    (trs : List TickRand) {j : Nat} (h : cells.getD j 0 = 1) :
    ((growthUpdate cfg size cx cy cells bs brs trs).1).getD j 0 = 1 := by
  unfold growthUpdate
  exact steppingPass_preserves cfg size cx cy _ trs cells h

/-- C8.  Occupancy monotonicity: within one growth cycle (any sequence of
growth-phase updates — the branching pass borrows the cells immutably and
the stepping pass only ever writes 1), once a cell reads 1 it still reads
1 after every subsequent update; only a reinitialization (which rebuilds
the array from `fill(0)`) can reset it. -/
theorem C8_occupancy_monotone (cfg : Config) (size : ℚ) (cx cy : Int)
    (ticks : List (List BranchRand × List TickRand)) (cells : List Nat)
    (bs : List Branch) (j : Nat) (h : cells.getD j 0 = 1) :
    ((growthRun cfg size cx cy ticks (cells, bs)).1).getD j 0 = 1 := by
  induction ticks generalizing cells bs with
  | nil => simpa [growthRun] using h
  | cons t ts ih =>
    simp only [growthRun]
    rcases hup : growthUpdate cfg size cx cy cells bs t.1 t.2 with ⟨cells2, bs2⟩
    have hpres := growthUpdate_preserves cfg size cx cy cells bs t.1 t.2 h
    rw [hup] at hpres
    exact ih cells2 bs2 hpres

/-- C8, witness: one full growth update on a 2×2 grid with one active
branch (it steps east); the seed cell 0 still reads 1 afterwards. -/
theorem C8_occupancy_monotone_witness :
    ((growthRun sampleConfig 3 2 2 [([sampleBranchRand], [sampleRand])]
      ([1, 0, 0, 0], [sampleBranch])).1).getD 0 0 = 1 :=
  C8_occupancy_monotone sampleConfig 3 2 2 [([sampleBranchRand], [sampleRand])]
    [1, 0, 0, 0] [sampleBranch] 0 (by decide)

end CityGrow
